import Mathlib

/-!
Verification of the composed-automaton typo-search strategies of
`src/main.rs` (an FST prefix search benchmark with up to two typos).

The dictionary is modelled as a list of keys in stream order, a key being a
list of scalars.  The external edit-distance automata are modelled from the
spec (§6 and glossary); everything else is translated from `src/main.rs`.
-/

namespace FstLev

/-- Modelled from the spec (glossary): restricted Damerau-Levenshtein
distance — insertions, deletions, substitutions, and (when `s = true`)
one adjacent transposition counted as a single edit.  The `Nat` argument
is structural fuel, always called with at least the summed lengths. -/
def dlDistAux [DecidableEq α] (s : Bool) : Nat → List α → List α → Nat
  | _, [], q => q.length
  | _, _ :: p, [] => p.length + 1
  | 0, _ :: _, _ :: _ => 0
  | f + 1, x :: p, y :: q =>
    let d1 := dlDistAux s f p (y :: q) + 1
    let d2 := dlDistAux s f (x :: p) q + 1
    let d3 := dlDistAux s f p q + (if x = y then 0 else 1)
    let m := min d1 (min d2 d3)
    if s = true ∧ p.head? = some y ∧ q.head? = some x then
      min m (dlDistAux s f p.tail q.tail + 1)
    else m

/-- Modelled from the spec: the Damerau-Levenshtein (`s = true`) or pure
Levenshtein (`s = false`) distance between two scalar strings. -/
def dlDist [DecidableEq α] (s : Bool) (p q : List α) : Nat :=
  dlDistAux s (p.length + q.length) p q

/-- All prefixes of a list, shortest first. -/
def initsL : List α → List (List α)
  | [] => [[]]
  | x :: p => [] :: (initsL p).map (x :: ·)

/-- Modelled from the spec (glossary "Prefix DFA"): the least edit distance
between the pattern `p` and any prefix of the key `w`.  The prefix DFA with
budget `k` accepts `w` iff this is at most `k`, and the final state of the
stateful stream exposes this value as the final distance. -/
def prefixDist [DecidableEq α] (s : Bool) (p w : List α) : Nat :=
  ((initsL w).map (dlDist s p)).foldr min (dlDist s p [])

end FstLev

namespace FstLev

/-- From `src/main.rs`: the hand-written automaton accepting one arbitrary
leading byte followed by the exact byte sequence `string`. -/
structure AnyFirstByteStr (α : Type) where
  string : List α

/-- From `src/main.rs` (`fn start`): the start state is position 0. -/
def AnyFirstByteStr.start (_ : AnyFirstByteStr α) : Option Nat :=
  some 0

/-- From `src/main.rs` (`fn is_match`): accept exactly at position
`string.len() + 1` (the ignored first byte shifts everything by one). -/
def AnyFirstByteStr.is_match (a : AnyFirstByteStr α) (pos : Option Nat) : Bool :=
  decide (pos = some (a.string.length + 1))

/-- From `src/main.rs` (`fn can_match`): any live (non-dead) state can
still reach a match. -/
def AnyFirstByteStr.can_match (_ : AnyFirstByteStr α) (pos : Option Nat) : Bool :=
  pos.isSome

/-- From `src/main.rs` (`fn accept`): position 0 accepts any byte; a later
position `pos` accepts exactly the byte `string[pos - 1]`; everything else
falls through to the dead state `none`. -/
def AnyFirstByteStr.accept [DecidableEq α] (a : AnyFirstByteStr α)
    (pos : Option Nat) (byte : α) : Option Nat :=
  match pos with
  | some pos =>
    if pos = 0 then some 1
    else if a.string.get? (pos - 1) = some byte then some (pos + 1)
    else none
  | none => none

/-- Running the automaton over a word from a given state. -/
def AnyFirstByteStr.run [DecidableEq α] (a : AnyFirstByteStr α)
    (pos : Option Nat) (w : List α) : Option Nat :=
  w.foldl a.accept pos

/-- Language of `AnyFirstByteStr::new(t).starts_with()`: some prefix of `w`
is accepted by the automaton (the `fst` crate's `StartsWith` wrapper
latches on the first accepted prefix). -/
def anyFirstSW [DecidableEq α] (t w : List α) : Bool :=
  (initsL w).any (fun q =>
    (AnyFirstByteStr.mk t).is_match ((AnyFirstByteStr.mk t).run (AnyFirstByteStr.mk t).start q))

end FstLev

namespace FstLev

/-- From `src/main.rs` (`fn split_first_char`): the first scalar and the
remainder; the `unwrap` panics (modelled as `none`) on the empty string. -/
def splitFirstChar : List Char → Option (Char × List Char)
  | [] => none
  | c :: t => some (c, t)

/-- Language of the `k`-typo Damerau prefix DFA built by
`LevenshteinAutomatonBuilder::new(k, true).build_prefix_dfa(p)`. -/
def editMatch (k : Nat) (p w : List Char) : Bool :=
  decide (prefixDist true p w ≤ k)

/-- From `src/main.rs` (`CurrentPrefixDFA` arm): the post-filter applied to
each streamed key, given the first scalar `c` of the query. -/
def currentKeep (k : Nat) (c : Char) (p w : List Char) : Bool :=
  if k = 0 then true
  else if k = 1 then decide (w.head? = some c)
  else if k = 2 then decide (w.head? = some c) || decide (prefixDist true p w < 2)
  else false

/-- From `src/main.rs` (`CurrentPrefixDFA` arm): stream the plain `k`-typo
Damerau prefix DFA with state, then post-filter.  `split_first_char` runs on
the query before the loop and on every streamed key inside the loop, so an
empty query — or an empty streamed key — panics (`none`). -/
def currentMatches (k : Nat) (p : List Char) (dict : List (List Char)) :
    Option (List (List Char)) :=
  match splitFirstChar p with
  | none => none
  | some (c, _) =>
    let streamed := dict.filter (editMatch k p)
    if streamed.any List.isEmpty then none
    else some (streamed.filter (currentKeep k c p))

/-- From `src/main.rs` (`BetterPrefixDFA`, `typos == 2`): the first-char-wrong
branch, `Str::new(first_char).starts_with().complement()` intersected with
either `AnyFirstByteStr::new(tail).starts_with()` (`no_swap`) or the
one-typo Damerau prefix DFA. -/
def branchWrong (noSwap : Bool) (c : Char) (p t w : List Char) : Bool :=
  !([c].isPrefixOf w) && (if noSwap then anyFirstSW t w else editMatch 1 p w)

/-- From `src/main.rs` (`BetterPrefixDFA`, `typos == 2`): the first-char-right
branch, `Str::new(first_char).starts_with()` intersected with the two-typo
Damerau prefix DFA. -/
def branchRight (c : Char) (p w : List Char) : Bool :=
  [c].isPrefixOf w && editMatch 2 p w

/-- From `src/main.rs` (`BetterPrefixDFA` arm): the pivot query planner.
`typos == 1` intersects the one-scalar literal automaton with the one-typo
DFA; `typos == 2` unites the two branches; anything else streams the plain
literal automaton of the whole query.  `split_first_char` runs only in the
`typos == 1` and `typos == 2` branches. -/
def betterMatches (k : Nat) (noSwap : Bool) (p : List Char)
    (dict : List (List Char)) : Option (List (List Char)) :=
  if k = 1 then
    match splitFirstChar p with
    | none => none
    | some (c, _) =>
      some (dict.filter (fun w => [c].isPrefixOf w && editMatch 1 p w))
  else if k = 2 then
    match splitFirstChar p with
    | none => none
    | some (c, t) =>
      some (dict.filter (fun w => branchWrong noSwap c p t w || branchRight c p w))
  else
    some (dict.filter (fun w => p.isPrefixOf w))

/-- Following the spec's words for the `k = 2` first-char-wrong branch:
keys whose first scalar differs from `c` and whose Damerau-Levenshtein
distance to `p` as a prefix is at most 1. -/
def specFirstCharWrong (c : Char) (p w : List Char) : Bool :=
  decide (w.head? ≠ some c) && decide (prefixDist true p w ≤ 1)

/-- Following the spec's words for the `k = 2` first-char-right branch:
keys sharing the first scalar `c`, with up to two edits. -/
def specFirstCharRight (c : Char) (p w : List Char) : Bool :=
  decide (w.head? = some c) && decide (prefixDist true p w ≤ 2)

/-- The dictionary D₂ of the spec's concrete scenarios, in stream order. -/
def dictD2 : List (List Char) :=
  [['b','a','t'], ['c','a','r'], ['c','a','r','t'], ['c','a','t'], ['d','o','g']]

/-- The dictionary D₃ of the spec's concrete scenarios, in stream order. -/
def dictD3 : List (List Char) :=
  [['h','e','l','l','o'], ['h','e','l','o'], ['h','l','e','l','o'], ['w','o','r','l','d']]

end FstLev

namespace FstLev

theorem dlDistAux_congr [DecidableEq α] (s : Bool) :
    ∀ (f f' : Nat) (p q : List α), p.length + q.length ≤ f → p.length + q.length ≤ f' →
      dlDistAux s f p q = dlDistAux s f' p q := by
  intro f
  induction f with
  | zero =>
    intro f' p q h h'
    cases p with
    | nil => simp [dlDistAux]
    | cons x p =>
      cases q with
      | nil => simp [dlDistAux]
      | cons y q => exfalso; simp [List.length_cons] at h
  | succ f ih =>
    intro f' p q h h'
    cases p with
    | nil => simp [dlDistAux]
    | cons x p =>
      cases q with
      | nil => simp [dlDistAux]
      | cons y q =>
        cases f' with
        | zero => exfalso; simp [List.length_cons] at h'
        | succ f' =>
          have ht : p.tail.length = p.length - 1 := List.length_tail p
          have ht' : q.tail.length = q.length - 1 := List.length_tail q
          simp only [List.length_cons] at h h'
          simp only [dlDistAux]
          rw [ih f' p (y :: q) (by simp [List.length_cons]; omega)
                (by simp [List.length_cons]; omega),
              ih f' (x :: p) q (by simp [List.length_cons]; omega)
                (by simp [List.length_cons]; omega),
              ih f' p q (by omega) (by omega),
              ih f' p.tail q.tail (by omega) (by omega)]

theorem dlDist_nil_left [DecidableEq α] (s : Bool) (q : List α) :
    dlDist s [] q = q.length := by
  simp [dlDist, dlDistAux]

theorem dlDist_cons_nil [DecidableEq α] (s : Bool) (x : α) (p : List α) :
    dlDist s (x :: p) [] = p.length + 1 := by
  simp [dlDist, dlDistAux]

theorem dlDist_cons_cons [DecidableEq α] (s : Bool) (x y : α) (p q : List α) :
    dlDist s (x :: p) (y :: q) =
      (if s = true ∧ p.head? = some y ∧ q.head? = some x then
        min (min (dlDist s p (y :: q) + 1)
          (min (dlDist s (x :: p) q + 1) (dlDist s p q + (if x = y then 0 else 1))))
          (dlDist s p.tail q.tail + 1)
      else
        min (dlDist s p (y :: q) + 1)
          (min (dlDist s (x :: p) q + 1) (dlDist s p q + (if x = y then 0 else 1)))) := by
  have ht : p.tail.length = p.length - 1 := List.length_tail p
  have ht' : q.tail.length = q.length - 1 := List.length_tail q
  have hfuel : (x :: p).length + (y :: q).length = (p.length + 1 + q.length) + 1 := by
    simp only [List.length_cons]; omega
  unfold dlDist
  rw [hfuel]
  simp only [dlDistAux]
  rw [dlDistAux_congr s (p.length + 1 + q.length) (p.length + (y :: q).length) p (y :: q)
        (by simp only [List.length_cons]; omega) (by simp only [List.length_cons]; omega),
      dlDistAux_congr s (p.length + 1 + q.length) ((x :: p).length + q.length) (x :: p) q
        (by simp only [List.length_cons]; omega) (by simp only [List.length_cons]; omega),
      dlDistAux_congr s (p.length + 1 + q.length) (p.length + q.length) p q
        (by omega) (by omega),
      dlDistAux_congr s (p.length + 1 + q.length) (p.tail.length + q.tail.length) p.tail q.tail
        (by omega) (by omega)]

theorem dlDist_self [DecidableEq α] (s : Bool) (p : List α) : dlDist s p p = 0 := by
  induction p with
  | nil => simp [dlDist_nil_left]
  | cons x p ih =>
    rw [dlDist_cons_cons]
    simp [ih, Nat.min_zero, Nat.zero_min]

theorem eq_of_dlDist_eq_zero [DecidableEq α] (s : Bool) :
    ∀ (p q : List α), dlDist s p q = 0 → p = q := by
  intro p
  induction p with
  | nil =>
    intro q h
    cases q with
    | nil => rfl
    | cons y q => rw [dlDist_nil_left] at h; simp at h
  | cons x p ih =>
    intro q h
    cases q with
    | nil => rw [dlDist_cons_nil] at h; omega
    | cons y q =>
      rw [dlDist_cons_cons] at h
      have hm : dlDist s p q + (if x = y then 0 else 1) = 0 := by
        by_cases hc : s = true ∧ p.head? = some y ∧ q.head? = some x
        · rw [if_pos hc] at h
          rcases Nat.min_eq_zero_iff.1 h with h' | h'
          · rcases Nat.min_eq_zero_iff.1 h' with h'' | h''
            · exact absurd h'' (Nat.succ_ne_zero _)
            · rcases Nat.min_eq_zero_iff.1 h'' with h3 | h3
              · exact absurd h3 (Nat.succ_ne_zero _)
              · exact h3
          · exact absurd h' (Nat.succ_ne_zero _)
        · rw [if_neg hc] at h
          rcases Nat.min_eq_zero_iff.1 h with h'' | h''
          · exact absurd h'' (Nat.succ_ne_zero _)
          · rcases Nat.min_eq_zero_iff.1 h'' with h3 | h3
            · exact absurd h3 (Nat.succ_ne_zero _)
            · exact h3
      have hd : dlDist s p q = 0 := by
        by_cases hxy : x = y
        · rw [if_pos hxy] at hm; omega
        · rw [if_neg hxy] at hm; omega
      have hxy : x = y := by
        by_cases hxy : x = y
        · exact hxy
        · rw [if_neg hxy] at hm; omega
      rw [hxy, ih q hd]

theorem mem_initsL (w q : List α) : q ∈ initsL w ↔ q <+: w := by
  induction w generalizing q with
  | nil => simp [initsL, List.prefix_nil]
  | cons x w ih =>
    simp only [initsL, List.mem_cons, List.mem_map]
    constructor
    · rintro (rfl | ⟨r, hr, rfl⟩)
      · exact List.nil_prefix
      · exact List.cons_prefix_cons.2 ⟨rfl, (ih r).1 hr⟩
    · intro hq
      cases q with
      | nil => left; rfl
      | cons z q =>
        rcases List.cons_prefix_cons.1 hq with ⟨rfl, hq'⟩
        right; exact ⟨q, (ih q).2 hq', rfl⟩

theorem foldr_min_le_iff (l : List Nat) (a n : Nat) :
    l.foldr min a ≤ n ↔ a ≤ n ∨ ∃ x ∈ l, x ≤ n := by
  induction l with
  | nil => simp
  | cons b l ih =>
    simp only [List.foldr_cons, min_le_iff, ih, List.mem_cons]
    constructor
    · rintro (h | h | ⟨x, hx, hxn⟩)
      · exact Or.inr ⟨b, Or.inl rfl, h⟩
      · exact Or.inl h
      · exact Or.inr ⟨x, Or.inr hx, hxn⟩
    · rintro (h | ⟨x, rfl | hx, hxn⟩)
      · exact Or.inr (Or.inl h)
      · exact Or.inl hxn
      · exact Or.inr (Or.inr ⟨x, hx, hxn⟩)

theorem prefixDist_le_iff [DecidableEq α] (s : Bool) (p w : List α) (n : Nat) :
    prefixDist s p w ≤ n ↔ ∃ q, q <+: w ∧ dlDist s p q ≤ n := by
  unfold prefixDist
  rw [foldr_min_le_iff]
  constructor
  · rintro (h | ⟨x, hx, hxn⟩)
    · exact ⟨[], List.nil_prefix, h⟩
    · rcases List.mem_map.1 hx with ⟨q, hq, rfl⟩
      exact ⟨q, (mem_initsL w q).1 hq, hxn⟩
  · rintro ⟨q, hq, hqn⟩
    exact Or.inr ⟨dlDist s p q, List.mem_map.2 ⟨q, (mem_initsL w q).2 hq, rfl⟩, hqn⟩

theorem prefixDist_eq_zero_iff [DecidableEq α] (s : Bool) (p w : List α) :
    prefixDist s p w = 0 ↔ p <+: w := by
  rw [← Nat.le_zero, prefixDist_le_iff]
  constructor
  · rintro ⟨q, hq, hd⟩
    exact (eq_of_dlDist_eq_zero s p q (Nat.le_zero.1 hd)) ▸ hq
  · intro h
    exact ⟨p, h, by rw [dlDist_self]⟩

theorem bool_eq_decide {b : Bool} {P : Prop} [Decidable P] (h : b = true ↔ P) :
    b = decide P := by
  cases b <;> simp_all

theorem isPrefixOf_eq_decide (p w : List Char) :
    p.isPrefixOf w = decide (p <+: w) :=
  bool_eq_decide List.isPrefixOf_iff_prefix

theorem singleton_isPrefixOf_eq (c : Char) (w : List Char) :
    [c].isPrefixOf w = decide (w.head? = some c) := by
  apply bool_eq_decide
  rw [List.isPrefixOf_iff_prefix]
  cases w with
  | nil => simp
  | cons x w => simp [List.cons_prefix_cons, eq_comm]

end FstLev

namespace FstLev

/-- C5: the `AnyFirstByteStr` automaton over a tail `T`: from position 0
every byte advances to position 1; from a position `p ≥ 1` the byte must
equal `T[p-1]` to advance to `p + 1` and otherwise the state becomes dead
(`none`); `is_match` holds exactly at position `|T| + 1`; `can_match` holds
exactly on non-dead states. -/
theorem c5_any_first_byte_behavior [DecidableEq α] :
    (∀ (a : AnyFirstByteStr α) (b : α), a.accept (some 0) b = some 1) ∧
    (∀ (a : AnyFirstByteStr α) (b : α) (p : Nat), 1 ≤ p →
      a.accept (some p) b =
        (if a.string.get? (p - 1) = some b then some (p + 1) else none)) ∧
    (∀ (a : AnyFirstByteStr α) (b : α), a.accept none b = none) ∧
    (∀ (a : AnyFirstByteStr α) (st : Option Nat),
      a.is_match st = true ↔ st = some (a.string.length + 1)) ∧
    (∀ (a : AnyFirstByteStr α) (st : Option Nat),
      a.can_match st = true ↔ st ≠ none) := by
  refine ⟨fun a b => rfl, fun a b p hp => ?_, fun a b => rfl, fun a st => ?_, fun a st => ?_⟩
  · simp only [AnyFirstByteStr.accept]
    rw [if_neg (by omega)]
  · simp [AnyFirstByteStr.is_match]
  · cases st <;> simp [AnyFirstByteStr.can_match]

theorem c5_any_first_byte_behavior_witness :
    (AnyFirstByteStr.mk [7, 9] : AnyFirstByteStr Nat).accept (some 1) 7 =
      (if ([7, 9] : List Nat).get? (1 - 1) = some 7 then some (1 + 1) else none) :=
  (c5_any_first_byte_behavior (α := Nat)).2.1 (AnyFirstByteStr.mk [7, 9]) 7 1 (by decide)

/-- C9: with `typos = 0` the planner streams the literal automaton of the
whole query, so the matches are exactly the keys starting with `P`. -/
theorem c9_zero_typos_literal :
    ∀ (ns : Bool) (p : List Char) (dict : List (List Char)),
      betterMatches 0 ns p dict = some (dict.filter (fun w => p.isPrefixOf w)) ∧
      ∀ (l : List (List Char)) (w : List Char),
        betterMatches 0 ns p dict = some l → (w ∈ l ↔ w ∈ dict ∧ p <+: w) := by
  intro ns p dict
  constructor
  · rfl
  · intro l w h
    have h' : (some (dict.filter (fun w => p.isPrefixOf w)) : Option (List (List Char))) =
        some l := h
    obtain rfl := (Option.some.inj h').symm
    simp [List.mem_filter, List.isPrefixOf_iff_prefix]

theorem c9_zero_typos_literal_witness :
    (['c','a','t'] : List Char) ∈ [(['c','a','t'] : List Char)] ↔
      ['c','a','t'] ∈ dictD2 ∧ ['c','a','t'] <+: ['c','a','t'] :=
  (c9_zero_typos_literal false ['c','a','t'] dictD2).2 [['c','a','t']] ['c','a','t'] (by decide)

/-- C6: with `typos = 1` the planner intersects the literal automaton of the
first scalar `c` with the one-typo Damerau prefix DFA over the query, so
every accepted key starts with `c`. -/
theorem c6_one_typo_planner :
    ∀ (ns : Bool) (c : Char) (t : List Char) (dict : List (List Char)),
      betterMatches 1 ns (c :: t) dict =
        some (dict.filter (fun w => [c].isPrefixOf w && editMatch 1 (c :: t) w)) ∧
      ∀ (l : List (List Char)) (w : List Char),
        betterMatches 1 ns (c :: t) dict = some l → w ∈ l → w.head? = some c := by
  intro ns c t dict
  constructor
  · rfl
  · intro l w h hw
    have h' : (some (dict.filter (fun w => [c].isPrefixOf w && editMatch 1 (c :: t) w)) :
        Option (List (List Char))) = some l := h
    obtain rfl := (Option.some.inj h').symm
    rcases List.mem_filter.1 hw with ⟨_, hcond⟩
    rcases (Bool.and_eq_true _ _).mp hcond with ⟨h1, _⟩
    obtain ⟨r, rfl⟩ := List.isPrefixOf_iff_prefix.1 h1
    rfl

theorem c6_one_typo_planner_witness : (['c','a','r'] : List Char).head? = some 'c' :=
  (c6_one_typo_planner false 'c' ['a','t'] dictD2).2
    [['c','a','r'], ['c','a','r','t'], ['c','a','t']] ['c','a','r'] (by decide) (by decide)

/-- C7: for `typos = 2` (either `no_swap` setting) the two branches of the
planner's union are disjoint — one requires the key to start with the first
scalar `c`, the other its complement — and the streamed union reports no
key twice (a duplicate-free dictionary yields a duplicate-free result). -/
theorem c7_branches_disjoint :
    (∀ (ns : Bool) (c : Char) (p t w : List Char),
      ¬(branchWrong ns c p t w = true ∧ branchRight c p w = true)) ∧
    (∀ (ns : Bool) (p : List Char) (dict l : List (List Char)),
      dict.Nodup → betterMatches 2 ns p dict = some l → l.Nodup) := by
  constructor
  · rintro ns c p t w ⟨hw, hr⟩
    have h1 := ((Bool.and_eq_true _ _).mp hw).1
    have h2 := ((Bool.and_eq_true _ _).mp hr).1
    rw [h2] at h1
    simp at h1
  · intro ns p dict l hnd h
    cases p with
    | nil => simp [betterMatches, splitFirstChar] at h
    | cons c t =>
      have h' : (some (dict.filter
          (fun w => branchWrong ns c (c :: t) t w || branchRight c (c :: t) w)) :
          Option (List (List Char))) = some l := h
      obtain rfl := (Option.some.inj h').symm
      exact hnd.filter _

theorem c7_branches_disjoint_witness :
    ([['b','a','t'], ['c','a','r'], ['c','a','r','t'], ['c','a','t']] :
      List (List Char)).Nodup :=
  c7_branches_disjoint.2 false ['c','a','t'] dictD2
    [['b','a','t'], ['c','a','r'], ['c','a','r','t'], ['c','a','t']] (by decide) (by decide)

/-- C2: for `typos = 2` with `no_swap = false` the planner's automaton
matches exactly the union of the two branches described by the spec: keys
whose first scalar differs from `c` within one Damerau edit of the query as
a prefix, and keys sharing the first scalar `c` within two edits. -/
theorem c2_two_typo_union :
    ∀ (c : Char) (t : List Char) (dict : List (List Char)),
      betterMatches 2 false (c :: t) dict =
        some (dict.filter (fun w =>
          specFirstCharWrong c (c :: t) w || specFirstCharRight c (c :: t) w)) := by
  intro c t dict
  have h' : betterMatches 2 false (c :: t) dict =
      some (dict.filter
        (fun w => branchWrong false c (c :: t) t w || branchRight c (c :: t) w)) := rfl
  rw [h']
  congr 1
  apply List.filter_congr
  intro w _
  rw [Bool.eq_iff_iff]
  simp only [branchWrong, branchRight, specFirstCharWrong, specFirstCharRight, editMatch,
    singleton_isPrefixOf_eq, Bool.or_eq_true, Bool.and_eq_true, Bool.not_eq_true',
    decide_eq_true_eq, decide_eq_false_iff_not, if_false, Bool.false_eq_true]

/-- C10: `split_first_char` returns the first scalar and the tail of a
non-empty string and panics on the empty string; the current strategy runs
it on the query for every typo budget (an empty query panics for every
`k`), while the better strategy runs it only for `typos ∈ {1, 2}` (an empty
query still streams the literal automaton at `typos = 0`). -/
theorem c10_split_first_char_totality :
    (∀ (c : Char) (t : List Char), splitFirstChar (c :: t) = some (c, t)) ∧
    splitFirstChar [] = none ∧
    (∀ (k : Nat) (dict : List (List Char)), currentMatches k [] dict = none) ∧
    (∀ (ns : Bool) (dict : List (List Char)),
      betterMatches 0 ns [] dict = some (dict.filter (fun w => List.isPrefixOf [] w))) ∧
    (∀ (ns : Bool) (dict : List (List Char)),
      betterMatches 1 ns [] dict = none ∧ betterMatches 2 ns [] dict = none) :=
  ⟨fun _ _ => rfl, rfl, fun _ _ => rfl, fun _ _ => rfl, fun _ _ => ⟨rfl, rfl⟩⟩

end FstLev

namespace FstLev

/-- C3 counterexample: on D₂ with `P = "cat"`, `k = 1`, the better strategy
also returns `"cart"` (its three-scalar head `"car"` is one edit from
`"cat"`), so the result is not the claimed set `{"cat", "car"}`. -/
theorem c3_counterexample :
    betterMatches 1 false ['c','a','t'] dictD2 =
      some [['c','a','r'], ['c','a','r','t'], ['c','a','t']] ∧
    (['c','a','r','t'] : List Char) ≠ ['c','a','t'] ∧
    (['c','a','r','t'] : List Char) ≠ ['c','a','r'] := by decide

/-- C3 amended: on D₂ with `P = "cat"` the better strategy returns exactly
`{"car", "cart", "cat"}` at `k = 1` and exactly `{"bat", "car", "cart",
"cat"}` at `k = 2`. -/
theorem c3_better_on_dictD2 :
    betterMatches 1 false ['c','a','t'] dictD2 =
      some [['c','a','r'], ['c','a','r','t'], ['c','a','t']] ∧
    betterMatches 2 false ['c','a','t'] dictD2 =
      some [['b','a','t'], ['c','a','r'], ['c','a','r','t'], ['c','a','t']] := by decide

/-- C4 counterexample: on D₃ with `P = "hello"`, `k = 2`, `no_swap = true`,
the transposed key `"hlelo"` is still accepted — its swap does not involve
the first scalar, and the first-char-right branch still uses a Damerau
two-typo DFA — so the result is not the claimed set `{"hello", "helo"}`. -/
theorem c4_counterexample :
    betterMatches 2 true ['h','e','l','l','o'] dictD3 =
      some [['h','e','l','l','o'], ['h','e','l','o'], ['h','l','e','l','o']] ∧
    (['h','l','e','l','o'] : List Char) ≠ ['h','e','l','l','o'] ∧
    (['h','l','e','l','o'] : List Char) ≠ ['h','e','l','o'] := by decide

/-- C4 amended: on D₃ with `P = "hello"`, `k = 2`, the better strategy
returns exactly `{"hello", "helo", "hlelo"}` for both `no_swap` settings. -/
theorem c4_better_on_dictD3 :
    betterMatches 2 false ['h','e','l','l','o'] dictD3 =
      some [['h','e','l','l','o'], ['h','e','l','o'], ['h','l','e','l','o']] ∧
    betterMatches 2 true ['h','e','l','l','o'] dictD3 =
      some [['h','e','l','l','o'], ['h','e','l','o'], ['h','l','e','l','o']] := by decide

/-- C8: the better strategy's match sets with `no_swap = false` grow with
the typo budget: every key matched at `k = 0` is matched at `k = 1`, and
every key matched at `k = 1` is matched at `k = 2`. -/
theorem c8_matches_monotone :
    ∀ (c : Char) (t : List Char) (dict : List (List Char))
      (l0 l1 l2 : List (List Char)) (w : List Char),
      betterMatches 0 false (c :: t) dict = some l0 →
      betterMatches 1 false (c :: t) dict = some l1 →
      betterMatches 2 false (c :: t) dict = some l2 →
      (w ∈ l0 → w ∈ l1) ∧ (w ∈ l1 → w ∈ l2) := by
  intro c t dict l0 l1 l2 w h0 h1 h2
  have h0' : (some (dict.filter (fun w => (c :: t).isPrefixOf w)) :
      Option (List (List Char))) = some l0 := h0
  have h1' : (some (dict.filter (fun w => [c].isPrefixOf w && editMatch 1 (c :: t) w)) :
      Option (List (List Char))) = some l1 := h1
  have h2' : (some (dict.filter
      (fun w => branchWrong false c (c :: t) t w || branchRight c (c :: t) w)) :
      Option (List (List Char))) = some l2 := h2
  obtain rfl := (Option.some.inj h0').symm
  obtain rfl := (Option.some.inj h1').symm
  obtain rfl := (Option.some.inj h2').symm
  constructor
  · intro hw
    rcases List.mem_filter.1 hw with ⟨hwd, hcond⟩
    have hpre : (c :: t) <+: w := List.isPrefixOf_iff_prefix.1 hcond
    refine List.mem_filter.2 ⟨hwd, (Bool.and_eq_true _ _).mpr ⟨?_, ?_⟩⟩
    · exact List.isPrefixOf_iff_prefix.2 (List.IsPrefix.trans ⟨t, rfl⟩ hpre)
    · have hz : prefixDist true (c :: t) w = 0 :=
        (prefixDist_eq_zero_iff true (c :: t) w).2 hpre
      simp [editMatch, hz]
  · intro hw
    rcases List.mem_filter.1 hw with ⟨hwd, hcond⟩
    rcases (Bool.and_eq_true _ _).mp hcond with ⟨hpre, hedit⟩
    refine List.mem_filter.2 ⟨hwd, (Bool.or_eq_true _ _).mpr (Or.inr ?_)⟩
    refine (Bool.and_eq_true _ _).mpr ⟨hpre, ?_⟩
    have h1le : prefixDist true (c :: t) w ≤ 1 := by
      simpa [editMatch] using hedit
    simp [branchRight, editMatch]
    omega

theorem c8_matches_monotone_witness :
    ((['c','a','t'] : List Char) ∈ [(['c','a','t'] : List Char)] →
      ['c','a','t'] ∈ [['c','a','r'], ['c','a','r','t'], ['c','a','t']]) ∧
    ((['c','a','t'] : List Char) ∈ [['c','a','r'], ['c','a','r','t'], ['c','a','t']] →
      ['c','a','t'] ∈ [['b','a','t'], ['c','a','r'], ['c','a','r','t'], ['c','a','t']]) :=
  c8_matches_monotone 'c' ['a','t'] dictD2 [['c','a','t']]
    [['c','a','r'], ['c','a','r','t'], ['c','a','t']]
    [['b','a','t'], ['c','a','r'], ['c','a','r','t'], ['c','a','t']] ['c','a','t']
    (by decide) (by decide) (by decide)

/-- C1 counterexample: with the empty key in the dictionary and `P = "a"`,
`k = 1`, the current strategy's post-filter calls `split_first_char` on the
streamed empty key and panics, while the better strategy returns the empty
match set — so the two match sets are not equal for every dictionary. -/
theorem c1_counterexample :
    ¬ (currentMatches 1 ['a'] [[]] = betterMatches 1 false ['a'] [[]]) := by decide

/-- C1 amended: over dictionaries whose keys are all non-empty (so the
current strategy's per-key `split_first_char` cannot panic), the current
and better strategies produce identical match sets for every non-empty
query and every `k ∈ {0, 1, 2}` with `no_swap = false`. -/
theorem c1_current_better_equiv :
    ∀ (c : Char) (t : List Char) (k : Nat) (dict : List (List Char)),
      k ≤ 2 → (∀ w ∈ dict, w ≠ []) →
      currentMatches k (c :: t) dict = betterMatches k false (c :: t) dict := by
  intro c t k dict hk hne
  have hany : ∀ m : Nat, (dict.filter (editMatch m (c :: t))).any List.isEmpty = false := by
    intro m
    rw [List.any_eq_false]
    intro x hx
    rcases List.mem_filter.1 hx with ⟨hxd, _⟩
    have hxne := hne x hxd
    cases x with
    | nil => exact absurd rfl hxne
    | cons a r => simp
  have hcur : currentMatches k (c :: t) dict =
      (if (dict.filter (editMatch k (c :: t))).any List.isEmpty then none
       else some ((dict.filter (editMatch k (c :: t))).filter
         (currentKeep k c (c :: t)))) := rfl
  rw [hcur, hany k, if_neg (by simp), List.filter_filter]
  interval_cases k
  · have hb : betterMatches 0 false (c :: t) dict =
        some (dict.filter (fun w => (c :: t).isPrefixOf w)) := rfl
    rw [hb]
    congr 1
    apply List.filter_congr
    intro w _
    rw [Bool.eq_iff_iff]
    simp [currentKeep, editMatch, isPrefixOf_eq_decide, Nat.le_zero,
      prefixDist_eq_zero_iff]
  · have hb : betterMatches 1 false (c :: t) dict =
        some (dict.filter (fun w => [c].isPrefixOf w && editMatch 1 (c :: t) w)) := rfl
    rw [hb]
    congr 1
    apply List.filter_congr
    intro w _
    simp [currentKeep, singleton_isPrefixOf_eq]
  · have hb : betterMatches 2 false (c :: t) dict =
        some (dict.filter
          (fun w => branchWrong false c (c :: t) t w || branchRight c (c :: t) w)) := rfl
    rw [hb]
    congr 1
    apply List.filter_congr
    intro w _
    rw [Bool.eq_iff_iff]
    simp only [currentKeep, branchWrong, branchRight, editMatch, singleton_isPrefixOf_eq,
      Bool.or_eq_true, Bool.and_eq_true, Bool.not_eq_true', decide_eq_true_eq,
      decide_eq_false_iff_not, if_false, Bool.false_eq_true, if_neg, if_pos]
    by_cases hh : w.head? = some c
    · simp [hh]
    · simp [hh]
      omega

theorem c1_current_better_equiv_witness :
    currentMatches 1 ['c','a','t'] dictD2 = betterMatches 1 false ['c','a','t'] dictD2 :=
  c1_current_better_equiv 'c' ['a','t'] 1 dictD2 (by decide) (by decide)

end FstLev
